import Mathlib

/-!
Verification of the device-memory management core of the cubecl runtime.

The public configuration surface (`PoolType`, `MemoryPoolOptions`,
`MemoryConfiguration`, `MemoryDeviceProperties`) is embedded from
`crates/cubecl-runtime/src/memory_management/mod.rs`.  The pool, lock and
manager implementations (`memory_pool`, `base`, `memory_lock`,
`memory_manage`) are declared there but their code is not part of the
excerpt, so they are modelled from the specification, as marked on each
definition.
-/

set_option maxHeartbeats 1000000

/-- The type of memory pool to use (from `mod.rs`).  `SlicedPages` carries
the maximum size of a slice to allocate in the pool. -/
inductive PoolType
  /-- Use a memory where every allocation is a separate page. -/
  | ExclusivePages
  /-- Use a memory where each allocation is a slice of a bigger allocation. -/
  | SlicedPages (max_slice_size : Nat)
deriving Repr, DecidableEq

/-- Options to create a memory pool (from `mod.rs`).  `u64` fields are
modelled as `Nat`; no arithmetic that could wrap occurs on them. -/
structure MemoryPoolOptions where
  pool_type : PoolType
  page_size : Nat
  chunk_num_prealloc : Nat
  dealloc_period : Option Nat
deriving Repr, DecidableEq

/-- Properties of the device related to allocation (from `mod.rs`). -/
structure MemoryDeviceProperties where
  max_page_size : Nat
  alignment : Nat
deriving Repr, DecidableEq

/-- High level configuration of memory management (from `mod.rs`).  The
`SubSlices` variant is compiled only when the `exclusive_memory_only`
configuration flag is absent; the conditional compilation is modelled by
indexing the type with the flag, so `SubSlices` inhabits only the
`false` (flag absent) instance of the type. -/
inductive MemoryConfiguration : (exclusive_memory_only : Bool) → Type
  | SubSlices : MemoryConfiguration false
  | ExclusivePages : {b : Bool} → MemoryConfiguration b
  | Custom : {b : Bool} → List MemoryPoolOptions → MemoryConfiguration b
deriving DecidableEq

/-- The `Default` impl for `MemoryConfiguration` (from `mod.rs`): under
`exclusive_memory_only` it is `ExclusivePages`, otherwise `SubSlices`. -/
def MemoryConfiguration.defaultFor : (b : Bool) → MemoryConfiguration b
  | true => .ExclusivePages
  | false => .SubSlices

/-- Whether a configuration value is the `SubSlices` variant. -/
def MemoryConfiguration.isSubSlices : {b : Bool} → MemoryConfiguration b → Bool
  | _, .SubSlices => true
  | _, _ => false

/-- Whether a configuration value is the `ExclusivePages` variant. -/
def MemoryConfiguration.isExclusivePages : {b : Bool} → MemoryConfiguration b → Bool
  | _, .ExclusivePages => true
  | _, _ => false

/-- Modelled from the spec: a Slice record inside a Chunk — offset into the
chunk, byte size, free/used flag and reference-counted lock count
(`memory_pool` / `memory_lock` are not part of the excerpt). -/
structure Slice where
  offset : Nat
  size : Nat
  free : Bool
  lockCount : Nat
deriving Repr, DecidableEq

/-- A slice is live when it is used or carries a nonzero lock count. -/
def Slice.live (s : Slice) : Bool := !s.free || s.lockCount != 0

/-- Two slices overlap when some byte address lies in both ranges. -/
def Slice.overlap (a b : Slice) : Prop :=
  ∃ x, (a.offset ≤ x ∧ x < a.offset + a.size) ∧ (b.offset ≤ x ∧ x < b.offset + b.size)

/-- Modelled from the spec: a Chunk — one contiguous region obtained from
the device, subdivided into a list of slice records kept in address order,
together with the last-touched allocation-counter value. -/
structure Chunk where
  size : Nat
  slices : List Slice
  lastTouched : Nat
deriving Repr, DecidableEq

/-- The slice records of a chunk tile an address interval: `tilesFrom o l e`
holds when the slices of `l`, in order, exactly cover `[o, e)`. -/
def tilesFrom : Nat → List Slice → Nat → Bool
  | o, [], e => o == e
  | o, s :: rest, e => o == s.offset && tilesFrom (o + s.size) rest e

/-- A chunk is well formed when its slices tile the whole chunk. -/
def Chunk.wf (c : Chunk) : Bool := tilesFrom 0 c.slices c.size

/-- A chunk is fully free when every slice record is logically free. -/
def Chunk.fullyFree (c : Chunk) : Bool := c.slices.all (·.free)

/-- A chunk is unlocked when no slice record carries a lock. -/
def Chunk.unlocked (c : Chunk) : Bool := c.slices.all (fun s => s.lockCount == 0)

/-- Modelled from the spec: whether a free region can serve a request — it
must be free, unlocked (a free-but-locked slice must not be handed out
again), large enough, and at an aligned offset. -/
def fits (req align : Nat) (s : Slice) : Bool :=
  s.free && s.lockCount == 0 && req ≤ s.size && s.offset % align == 0

/-- Modelled from the spec: carve a slice of `req` bytes from the first
fitting free region of a slice list; the region is split into a used slice
and a free remainder.  Returns the offset handed out and the new list. -/
def carve (req align : Nat) : List Slice → Option (Nat × List Slice)
  | [] => none
  | s :: rest =>
    if fits req align s then
      some (s.offset,
        ⟨s.offset, req, false, 0⟩ ::
          (if req < s.size then ⟨s.offset + req, s.size - req, true, 0⟩ :: rest else rest))
    else
      match carve req align rest with
      | some (off, l) => some (off, s :: l)
      | none => none

/-- Modelled from the spec: releasing a slice marks the used slice at the
given offset free; the flag of every other slice is untouched. -/
def releaseAt (off : Nat) (l : List Slice) : List Slice :=
  l.map (fun s => if s.offset == off && !s.free then { s with free := true } else s)

/-- Modelled from the spec: acquiring a lock increments the lock count of
the slice at the given offset; acquiring never blocks. -/
def lockAt (off : Nat) (l : List Slice) : List Slice :=
  l.map (fun s => if s.offset == off then { s with lockCount := s.lockCount + 1 } else s)

/-- Modelled from the spec: releasing a lock decrements the lock count of
the slice at the given offset. -/
def unlockAt (off : Nat) (l : List Slice) : List Slice :=
  l.map (fun s => if s.offset == off then { s with lockCount := s.lockCount - 1 } else s)

/-- Modelled from the spec: coalesce adjacent free unlocked regions after a
release, to control fragmentation.  A locked region is never merged. -/
def coalesce : List Slice → List Slice
  | [] => []
  | a :: rest =>
    match coalesce rest with
    | [] => [a]
    | b :: rest' =>
      if a.free && a.lockCount == 0 && b.free && b.lockCount == 0
          && b.offset == a.offset + a.size then
        ⟨a.offset, a.size + b.size, true, 0⟩ :: rest'
      else
        a :: b :: rest'

/-- Update the element at one index of a list, leaving other indices alone. -/
def modifyIdx (f : α → α) : Nat → List α → List α
  | _, [] => []
  | 0, a :: rest => f a :: rest
  | n + 1, a :: rest => a :: modifyIdx f n rest

/-- Modelled from the spec: recoverable allocation errors surfaced to the
caller. -/
inductive ReserveError
  | SliceTooLarge
  | OutOfDeviceMemory
deriving Repr, DecidableEq

/-- Modelled from the spec: the configuration error raised when a pool's
parameters violate the device limits. -/
inductive ConfigError
  | InvalidConfiguration
deriving Repr, DecidableEq

/-- Modelled from the spec: releasing a slice of a chunk marks it free and
coalesces adjacent free regions; the chunk is touched at the current value
of the global allocation counter. -/
def Chunk.releaseOp (c : Chunk) (off counter : Nat) : Chunk :=
  { c with slices := coalesce (releaseAt off c.slices), lastTouched := counter }

/-- Lock the slice at an offset of a chunk. -/
def Chunk.lockOp (c : Chunk) (off : Nat) : Chunk :=
  { c with slices := lockAt off c.slices }

/-- Unlock the slice at an offset of a chunk. -/
def Chunk.unlockOp (c : Chunk) (off : Nat) : Chunk :=
  { c with slices := unlockAt off c.slices }

/-- A fresh, fully free chunk of the given size. -/
def freshChunk (size counter : Nat) : Chunk :=
  ⟨size, [⟨0, size, true, 0⟩], counter⟩

/-- Modelled from the spec: the Sliced-Pages pool — a size ceiling per
slice, a fixed page size per chunk, an optional eviction period counted in
allocation operations, and an arena of chunks.  Destroyed chunks leave a
`none` entry behind so that handles carry stable chunk indices. -/
structure SlicedPool where
  maxSliceSize : Nat
  pageSize : Nat
  deallocPeriod : Option Nat
  chunks : List (Option Chunk)
deriving Repr, DecidableEq

/-- Replace the slice list of a chunk and touch it at the given counter. -/
def Chunk.withSlices (c : Chunk) (l : List Slice) (counter : Nat) : Chunk :=
  { c with slices := l, lastTouched := counter }

/-- Modelled from the spec: search the existing chunks, in order, for a
free region able to serve the request; returns the chunk index, the offset
handed out, and the new slice list of that chunk. -/
def findCarve (req align : Nat) : List (Option Chunk) → Option (Nat × Nat × List Slice)
  | [] => none
  | oc :: rest =>
    match oc with
    | some c =>
      match carve req align c.slices with
      | some (off, slices') => some (0, off, slices')
      | none => (findCarve req align rest).map (fun r => (r.1 + 1, r.2))
    | none => (findCarve req align rest).map (fun r => (r.1 + 1, r.2))

/-- Modelled from the spec: `reserve` on a Sliced-Pages pool.  A request
above the ceiling fails immediately with `SliceTooLarge` and changes
nothing.  Otherwise the pool searches existing chunks for a free region;
on failure it allocates a new chunk of exactly `pageSize` bytes and carves
the first slice from it.  The device allocation call itself is modelled as
always succeeding; the final fallback is unreachable whenever
`maxSliceSize ≤ pageSize`.  Returns (result, pool): the result carries the
chunk index and slice offset. -/
def SlicedPool.reserve (p : SlicedPool) (req align counter : Nat) :
    Except ReserveError (Nat × Nat) × SlicedPool :=
  if p.maxSliceSize < req then (.error .SliceTooLarge, p)
  else
    match findCarve req align p.chunks with
    | some (ci, off, sl) =>
      (.ok (ci, off),
        { p with chunks :=
            modifyIdx (Option.map (fun c => c.withSlices sl counter)) ci p.chunks })
    | none =>
      match carve req align (freshChunk p.pageSize counter).slices with
      | some (off, slices') =>
        (.ok (p.chunks.length, off),
          { p with chunks := p.chunks ++ [some ⟨p.pageSize, slices', counter⟩] })
      | none => (.error .OutOfDeviceMemory, p)

/-- Release a slice of a Sliced-Pages pool, by chunk index and offset. -/
def SlicedPool.release (p : SlicedPool) (ci off counter : Nat) : SlicedPool :=
  { p with chunks := modifyIdx (Option.map (fun c => c.releaseOp off counter)) ci p.chunks }

/-- Lock a slice of a Sliced-Pages pool. -/
def SlicedPool.lock (p : SlicedPool) (ci off : Nat) : SlicedPool :=
  { p with chunks := modifyIdx (Option.map (fun c => c.lockOp off)) ci p.chunks }

/-- Unlock a slice of a Sliced-Pages pool. -/
def SlicedPool.unlock (p : SlicedPool) (ci off : Nat) : SlicedPool :=
  { p with chunks := modifyIdx (Option.map (fun c => c.unlockOp off)) ci p.chunks }

/-- Modelled from the spec: `tick` on a Sliced-Pages pool destroys every
chunk that is fully free, unlocked, and whose last-touched counter value is
at least `deallocPeriod` operations older than the current global counter.
Without a configured period nothing is ever evicted. -/
def SlicedPool.tick (p : SlicedPool) (counter : Nat) : SlicedPool :=
  match p.deallocPeriod with
  | none => p
  | some P =>
    { p with chunks := p.chunks.map (fun oc =>
        match oc with
        | some c =>
          if c.fullyFree && c.unlocked && P ≤ counter - c.lastTouched then none else some c
        | none => none) }

/-- Modelled from the spec: the Exclusive-Pages pool — every allocation is
one whole chunk holding a single slice.  The configured eviction period is
kept in the state but deliberately ignored by `tick` (there is nothing to
amortize).  Destroyed chunks leave a `none` entry behind. -/
structure ExclusivePool where
  deallocPeriod : Option Nat
  chunks : List (Option Chunk)
deriving Repr, DecidableEq

/-- Round a size up to a multiple of the alignment. -/
def roundUp (s a : Nat) : Nat := if a == 0 then s else (s + a - 1) / a * a

/-- Modelled from the spec: `reserve` on an Exclusive-Pages pool always
creates one new chunk sized to the request rounded up to the alignment and
returns a slice spanning the whole chunk.  Device allocation is modelled as
always succeeding. -/
def ExclusivePool.reserve (p : ExclusivePool) (req align counter : Nat) :
    (Nat × Nat) × ExclusivePool :=
  let sz := roundUp req align
  ((p.chunks.length, 0),
    { p with chunks := p.chunks ++ [some ⟨sz, [⟨0, sz, false, 0⟩], counter⟩] })

/-- Release a slice of an Exclusive-Pages pool. -/
def ExclusivePool.release (p : ExclusivePool) (ci off counter : Nat) : ExclusivePool :=
  { p with chunks := modifyIdx (Option.map (fun c => c.releaseOp off counter)) ci p.chunks }

/-- Lock a slice of an Exclusive-Pages pool. -/
def ExclusivePool.lock (p : ExclusivePool) (ci off : Nat) : ExclusivePool :=
  { p with chunks := modifyIdx (Option.map (fun c => c.lockOp off)) ci p.chunks }

/-- Unlock a slice of an Exclusive-Pages pool. -/
def ExclusivePool.unlock (p : ExclusivePool) (ci off : Nat) : ExclusivePool :=
  { p with chunks := modifyIdx (Option.map (fun c => c.unlockOp off)) ci p.chunks }

/-- Modelled from the spec: `tick` on an Exclusive-Pages pool immediately
destroys any chunk whose slice is free and unlocked — no waiting period,
independent of any configured `deallocPeriod`. -/
def ExclusivePool.tick (p : ExclusivePool) : ExclusivePool :=
  { p with chunks := p.chunks.map (fun oc =>
      match oc with
      | some c => if c.fullyFree && c.unlocked then none else some c
      | none => none) }


/-- Modelled from the spec: a pool is one of the two strategies. -/
inductive Pool
  | sliced (p : SlicedPool)
  | exclusive (p : ExclusivePool)
deriving Repr, DecidableEq

/-- Whether a pool's ceiling covers a request: Sliced-Pages pools handle
requests up to their ceiling, an Exclusive-Pages pool handles any size. -/
def Pool.ceilingCovers (pool : Pool) (size : Nat) : Bool :=
  match pool with
  | .sliced p => size ≤ p.maxSliceSize
  | .exclusive _ => true

/-- Reserve from a pool; the result carries chunk index and slice offset. -/
def Pool.reserve (pool : Pool) (size align counter : Nat) :
    Except ReserveError (Nat × Nat) × Pool :=
  match pool with
  | .sliced p =>
    match p.reserve size align counter with
    | (r, p') => (r, .sliced p')
  | .exclusive p =>
    match p.reserve size align counter with
    | (r, p') => (.ok r, .exclusive p')

/-- Release a slice of a pool. -/
def Pool.release (pool : Pool) (ci off counter : Nat) : Pool :=
  match pool with
  | .sliced p => .sliced (p.release ci off counter)
  | .exclusive p => .exclusive (p.release ci off counter)

/-- Lock a slice of a pool. -/
def Pool.lock (pool : Pool) (ci off : Nat) : Pool :=
  match pool with
  | .sliced p => .sliced (p.lock ci off)
  | .exclusive p => .exclusive (p.lock ci off)

/-- Unlock a slice of a pool. -/
def Pool.unlock (pool : Pool) (ci off : Nat) : Pool :=
  match pool with
  | .sliced p => .sliced (p.unlock ci off)
  | .exclusive p => .exclusive (p.unlock ci off)

/-- Tick a pool at the current global counter. -/
def Pool.tick (pool : Pool) (counter : Nat) : Pool :=
  match pool with
  | .sliced p => .sliced (p.tick counter)
  | .exclusive p => .exclusive p.tick

/-- Modelled from the spec: a handle records which pool, chunk and slice an
allocation came from. -/
structure Handle where
  pool : Nat
  chunk : Nat
  offset : Nat
deriving Repr, DecidableEq

/-- Modelled from the spec: the Memory Manager holds the ordered pools and
the global allocation counter. -/
structure Manager where
  pools : List Pool
  counter : Nat
deriving Repr, DecidableEq

/-- Index of the first pool whose ceiling covers the requested size. -/
def coveringIdx (size : Nat) : List Pool → Option Nat
  | [] => none
  | pool :: rest =>
    if pool.ceilingCovers size then some 0 else (coveringIdx size rest).map (· + 1)

/-- Look up a list element by index, totally. -/
def nth : List α → Nat → Option α
  | [], _ => none
  | a :: _, 0 => some a
  | _ :: rest, n + 1 => nth rest n

/-- Modelled from the spec: `reserve` on the Memory Manager selects the
first pool whose ceiling covers the size, delegates, and on success
increments the global allocation counter exactly once.  When no pool
covers the size the request fails with `SliceTooLarge` and nothing
changes. -/
def Manager.reserve (m : Manager) (size align : Nat) : Except ReserveError Handle × Manager :=
  match coveringIdx size m.pools with
  | none => (.error .SliceTooLarge, m)
  | some pi =>
    match nth m.pools pi with
    | none => (.error .SliceTooLarge, m)
    | some pool =>
      match pool.reserve size align m.counter with
      | (.ok (ci, off), pool') =>
        (.ok ⟨pi, ci, off⟩, ⟨modifyIdx (fun _ => pool') pi m.pools, m.counter + 1⟩)
      | (.error e, _) => (.error e, m)

/-- Route a release back to the owning pool through the handle. -/
def Manager.release (m : Manager) (h : Handle) : Manager :=
  { m with pools := modifyIdx (fun pool => pool.release h.chunk h.offset m.counter) h.pool m.pools }

/-- Route a lock acquisition to the owning pool through the handle. -/
def Manager.lock (m : Manager) (h : Handle) : Manager :=
  { m with pools := modifyIdx (fun pool => pool.lock h.chunk h.offset) h.pool m.pools }

/-- Route a lock release to the owning pool through the handle. -/
def Manager.unlock (m : Manager) (h : Handle) : Manager :=
  { m with pools := modifyIdx (fun pool => pool.unlock h.chunk h.offset) h.pool m.pools }

/-- Modelled from the spec: `tick` invokes every pool's tick in
registration order; pools read the global counter and do not change it. -/
def Manager.tickAll (m : Manager) : Manager :=
  { m with pools := m.pools.map (fun pool => pool.tick m.counter) }

/-- The operations a caller can perform on the Memory Manager. -/
inductive Op
  | reserve (size align : Nat)
  | release (h : Handle)
  | lock (h : Handle)
  | unlock (h : Handle)
  | tick
deriving Repr, DecidableEq

/-- One step of the manager under an operation (the returned handle or
error is dropped; only the state evolution matters here). -/
def Manager.step (m : Manager) (op : Op) : Manager :=
  match op with
  | .reserve size align => (m.reserve size align).2
  | .release h => m.release h
  | .lock h => m.lock h
  | .unlock h => m.unlock h
  | .tick => m.tickAll

/-- Run a sequence of operations from a state. -/
def Manager.run (m : Manager) : List Op → Manager
  | [] => m
  | op :: ops => (m.step op).run ops

/-- Modelled from the spec: build one pool from its options, eagerly
pre-allocating `chunk_num_prealloc` chunks. -/
def initPool (o : MemoryPoolOptions) : Pool :=
  match o.pool_type with
  | .SlicedPages maxSlice =>
    .sliced ⟨maxSlice, o.page_size, o.dealloc_period,
      List.replicate o.chunk_num_prealloc (some (freshChunk o.page_size 0))⟩
  | .ExclusivePages =>
    .exclusive ⟨o.dealloc_period,
      List.replicate o.chunk_num_prealloc (some (freshChunk o.page_size 0))⟩

/-- Modelled from the spec: whether one pool's options satisfy the
configuration constraints against the device properties: a positive page
size, no page larger than the device's maximum, and for the sliced
strategy a slice ceiling no larger than the page size. -/
def validPool (d : MemoryDeviceProperties) (o : MemoryPoolOptions) : Bool :=
  decide (0 < o.page_size) && decide (o.page_size ≤ d.max_page_size) &&
    (match o.pool_type with
     | .SlicedPages maxSlice => decide (maxSlice ≤ o.page_size)
     | .ExclusivePages => true)

/-- Modelled from the spec: one-time setup of the Memory Manager — builds
one pool per configuration entry in source order, failing with
`InvalidConfiguration` if any pool's parameters violate the constraints. -/
def configure (d : MemoryDeviceProperties) (cfg : List MemoryPoolOptions) :
    Except ConfigError Manager :=
  if cfg.all (validPool d) then .ok ⟨cfg.map initPool, 0⟩
  else .error .InvalidConfiguration

/-- The chunk arena of a pool, for either strategy. -/
def Pool.chunkArena (pool : Pool) : List (Option Chunk) :=
  match pool with
  | .sliced p => p.chunks
  | .exclusive p => p.chunks

/-- The chunk stored at an index of a pool's arena, if it is alive. -/
def Pool.chunkAt (pool : Pool) (ci : Nat) : Option Chunk :=
  (nth pool.chunkArena ci).bind id

/-- The slice records of the chunk at an index of a pool's arena; an absent
or destroyed chunk observes as the empty list. -/
def Pool.slicesAtC (pool : Pool) (ci : Nat) : List Slice :=
  ((pool.chunkAt ci).map Chunk.slices).getD []

/-- The chunk at (pool index, chunk index) of a manager, if alive. -/
def Manager.chunkAt (m : Manager) (pi ci : Nat) : Option Chunk :=
  (nth m.pools pi).bind (fun pool => pool.chunkAt ci)

/-- The slice records of the chunk at (pool index, chunk index). -/
def Manager.slicesAt (m : Manager) (pi ci : Nat) : List Slice :=
  match nth m.pools pi with
  | some pool => pool.slicesAtC ci
  | none => []

/-- A slice survives as a record with the same byte range whose free flag
never moves from free back to used. -/
def keepSlice (s s' : Slice) : Prop :=
  s'.offset = s.offset ∧ s'.size = s.size ∧ (s.free = true → s'.free = true)

/-- No two live slices of a chunk overlap in byte range. -/
def Chunk.noAliasing (c : Chunk) : Prop :=
  ∀ i j (hi : i < c.slices.length) (hj : j < c.slices.length), i ≠ j →
    (c.slices[i]).live = true → (c.slices[j]).live = true →
    ¬ Slice.overlap (c.slices[i]) (c.slices[j])

/-- Every chunk of the manager satisfies the no-aliasing invariant. -/
def Manager.noAliasing (m : Manager) : Prop :=
  ∀ pi ci c, m.chunkAt pi ci = some c → c.noAliasing

/-- Every alive chunk of a pool's arena is well formed. -/
def Pool.wf (pool : Pool) : Bool :=
  pool.chunkArena.all (fun oc => ((oc.map Chunk.wf).getD true))

/-- Every chunk of every pool of the manager is well formed. -/
def Manager.wf (m : Manager) : Bool := m.pools.all Pool.wf

/-! Helper lemmas about tiling. -/

theorem tilesFrom_le {o e : Nat} {l : List Slice} (h : tilesFrom o l e = true) : o ≤ e := by
  induction l generalizing o with
  | nil => simp [tilesFrom] at h; omega
  | cons s rest ih =>
    simp [tilesFrom] at h
    have := ih h.2
    omega

theorem tilesFrom_bounds {o e : Nat} {l : List Slice} (h : tilesFrom o l e = true) :
    ∀ i (hi : i < l.length), o ≤ l[i].offset ∧ l[i].offset + l[i].size ≤ e := by
  induction l generalizing o with
  | nil => intro i hi; simp at hi
  | cons s rest ih =>
    simp [tilesFrom] at h
    obtain ⟨ho, ht⟩ := h
    intro i hi
    cases i with
    | zero =>
      have := tilesFrom_le ht
      simp
      omega
    | succ j =>
      have hj : j < rest.length := by simpa using hi
      have := ih ht j hj
      simp
      omega

theorem tilesFrom_ordered {o e : Nat} {l : List Slice} (h : tilesFrom o l e = true) :
    ∀ i j (hi : i < l.length) (hj : j < l.length), i < j →
      l[i].offset + l[i].size ≤ l[j].offset := by
  induction l generalizing o with
  | nil => intro i j hi; simp at hi
  | cons s rest ih =>
    simp [tilesFrom] at h
    obtain ⟨ho, ht⟩ := h
    intro i j hi hj hij
    cases i with
    | zero =>
      cases j with
      | zero => omega
      | succ j' =>
        have hj' : j' < rest.length := by simpa using hj
        have := (tilesFrom_bounds ht j' hj').1
        simp
        omega
    | succ i' =>
      cases j with
      | zero => omega
      | succ j' =>
        have hi' : i' < rest.length := by simpa using hi
        have hj' : j' < rest.length := by simpa using hj
        have := ih ht i' j' hi' hj' (by omega)
        simpa using this

theorem not_overlap_of_le {a b : Slice} (h : a.offset + a.size ≤ b.offset) :
    ¬ Slice.overlap a b := by
  rintro ⟨x, ⟨_, hx⟩, ⟨hy, _⟩⟩
  omega

theorem overlap_symm {a b : Slice} (h : Slice.overlap a b) : Slice.overlap b a := by
  obtain ⟨x, h1, h2⟩ := h
  exact ⟨x, h2, h1⟩

theorem Chunk.noAliasing_of_wf {c : Chunk} (h : c.wf = true) : c.noAliasing := by
  intro i j hi hj hne _ _
  rcases Nat.lt_or_ge i j with hij | hij
  · exact not_overlap_of_le (tilesFrom_ordered h i j hi hj hij)
  · have hji : j < i := by omega
    intro hov
    exact not_overlap_of_le (tilesFrom_ordered h j i hj hi hji) (overlap_symm hov)

/-! Helper lemmas: the chunk-level operations preserve the tiling. -/

theorem fits_parts {req align : Nat} {s : Slice} (hf : fits req align s = true) :
    s.free = true ∧ s.lockCount = 0 ∧ req ≤ s.size := by
  simp only [fits, Bool.and_eq_true, beq_iff_eq, decide_eq_true_eq] at hf
  exact ⟨hf.1.1.1, hf.1.1.2, hf.1.2⟩

theorem tilesFrom_carve {req align o e off : Nat} {l l' : List Slice}
    (ht : tilesFrom o l e = true) (hc : carve req align l = some (off, l')) :
    tilesFrom o l' e = true := by
  induction l generalizing o off l' with
  | nil => simp [carve] at hc
  | cons s rest ih =>
    simp [tilesFrom] at ht
    obtain ⟨ho, ht⟩ := ht
    subst ho
    by_cases hf : fits req align s
    · have hreq : req ≤ s.size := (fits_parts hf).2.2
      rw [carve, if_pos hf] at hc
      injection hc with hc
      injection hc with hc1 hc2
      subst hc2
      by_cases hlt : req < s.size
      · simp only [if_pos hlt]
        simp [tilesFrom]
        have harith : s.offset + req + (s.size - req) = s.offset + s.size := by omega
        rw [harith]
        exact ht
      · have heq : req = s.size := by omega
        simp only [if_neg hlt]
        simp [tilesFrom, heq]
        exact ht
    · rw [carve, if_neg hf] at hc
      match hcr : carve req align rest with
      | none => rw [hcr] at hc; exact absurd hc (by simp)
      | some (off₂, l₂) =>
        rw [hcr] at hc
        injection hc with hc
        injection hc with hc1 hc2
        subst hc2
        simp [tilesFrom]
        exact ih ht hcr

theorem tilesFrom_map {f : Slice → Slice} (hoff : ∀ s, (f s).offset = s.offset)
    (hsz : ∀ s, (f s).size = s.size) {o e : Nat} (l : List Slice) :
    tilesFrom o (l.map f) e = tilesFrom o l e := by
  induction l generalizing o with
  | nil => simp
  | cons s rest ih => simp [tilesFrom, hoff, hsz, ih]

theorem releaseAt_offset (off : Nat) (s : Slice) :
    (if s.offset == off && !s.free then { s with free := true } else s).offset = s.offset := by
  by_cases h : s.offset == off && !s.free <;> simp [h]

theorem releaseAt_size (off : Nat) (s : Slice) :
    (if s.offset == off && !s.free then { s with free := true } else s).size = s.size := by
  by_cases h : s.offset == off && !s.free <;> simp [h]

theorem tilesFrom_releaseAt {o e off : Nat} (l : List Slice) :
    tilesFrom o (releaseAt off l) e = tilesFrom o l e :=
  tilesFrom_map (releaseAt_offset off) (releaseAt_size off) l

theorem tilesFrom_lockAt {o e off : Nat} (l : List Slice) :
    tilesFrom o (lockAt off l) e = tilesFrom o l e := by
  refine tilesFrom_map ?_ ?_ l <;> intro s <;>
    by_cases h : s.offset == off <;> simp [h]

theorem tilesFrom_unlockAt {o e off : Nat} (l : List Slice) :
    tilesFrom o (unlockAt off l) e = tilesFrom o l e := by
  refine tilesFrom_map ?_ ?_ l <;> intro s <;>
    by_cases h : s.offset == off <;> simp [h]

theorem tilesFrom_coalesce {o e : Nat} {l : List Slice} (ht : tilesFrom o l e = true) :
    tilesFrom o (coalesce l) e = true := by
  induction l generalizing o with
  | nil => simpa [coalesce] using ht
  | cons a rest ih =>
    simp [tilesFrom] at ht
    obtain ⟨ho, ht⟩ := ht
    subst ho
    have ih' := ih ht
    cases hcr : coalesce rest with
    | nil =>
      rw [hcr] at ih'
      simp [tilesFrom] at ih'
      simp [coalesce, hcr, tilesFrom, ih']
    | cons b rest' =>
      rw [hcr] at ih'
      simp [tilesFrom] at ih'
      obtain ⟨hb, ht'⟩ := ih'
      by_cases hm : (a.free && a.lockCount == 0 && b.free && b.lockCount == 0
          && b.offset == a.offset + a.size) = true
      · simp only [coalesce, hcr, if_pos hm]
        simp [tilesFrom]
        have harith : a.offset + (a.size + b.size) = a.offset + a.size + b.size := by omega
        rw [harith]
        exact ht'
      · simp only [coalesce, hcr, if_neg hm]
        simp [tilesFrom, hb]
        rw [← hb]
        exact ht'

/-! Helper lemmas about list indexing and update. -/

theorem nth_mem {l : List α} {i : Nat} {a : α} (h : nth l i = some a) : a ∈ l := by
  induction l generalizing i with
  | nil => simp [nth] at h
  | cons x rest ih =>
    cases i with
    | zero => simp [nth] at h; simp [h]
    | succ j => exact .tail _ (ih h)

theorem nth_modifyIdx_self (f : α → α) (i : Nat) (l : List α) :
    nth (modifyIdx f i l) i = (nth l i).map f := by
  induction l generalizing i with
  | nil => simp [modifyIdx, nth]
  | cons x rest ih =>
    cases i with
    | zero => simp [modifyIdx, nth]
    | succ j => simpa [modifyIdx, nth] using ih j

theorem nth_modifyIdx_ne (f : α → α) {i j : Nat} (l : List α) (h : i ≠ j) :
    nth (modifyIdx f i l) j = nth l j := by
  induction l generalizing i j with
  | nil => simp [modifyIdx]
  | cons x rest ih =>
    cases i with
    | zero =>
      cases j with
      | zero => omega
      | succ j' => simp [modifyIdx, nth]
    | succ i' =>
      cases j with
      | zero => simp [modifyIdx, nth]
      | succ j' => simpa [modifyIdx, nth] using ih (by omega)

theorem nth_append_of_some {l l₂ : List α} {i : Nat} {a : α} (h : nth l i = some a) :
    nth (l ++ l₂) i = some a := by
  induction l generalizing i with
  | nil => simp [nth] at h
  | cons x rest ih =>
    cases i with
    | zero => simpa [nth] using h
    | succ j => simpa [nth] using ih h

theorem nth_map (f : α → β) (l : List α) (i : Nat) :
    nth (l.map f) i = (nth l i).map f := by
  induction l generalizing i with
  | nil => simp [nth]
  | cons x rest ih =>
    cases i with
    | zero => simp [nth]
    | succ j => simpa [nth] using ih j

theorem nth_replicate {n i : Nat} {a : α} (h : i < n) :
    nth (List.replicate n a) i = some a := by
  induction n generalizing i with
  | zero => omega
  | succ m ih =>
    cases i with
    | zero => simp [List.replicate, nth]
    | succ j => simpa [List.replicate, nth] using ih (by omega)

theorem all_modifyIdx {p : α → Bool} {f : α → α} {l : List α} (i : Nat)
    (hl : l.all p = true) (hf : ∀ a, p a = true → p (f a) = true) :
    (modifyIdx f i l).all p = true := by
  induction l generalizing i with
  | nil => simp [modifyIdx]
  | cons x rest ih =>
    simp at hl
    cases i with
    | zero => simpa [modifyIdx] using ⟨hf x hl.1, hl.2⟩
    | succ j =>
      simp [modifyIdx]
      exact ⟨hl.1, by simpa using ih j (by simpa using hl.2)⟩

theorem all_nth {p : α → Bool} {l : List α} {i : Nat} {a : α}
    (hl : l.all p = true) (h : nth l i = some a) : p a = true := by
  simp [List.all_eq_true] at hl
  exact hl a (nth_mem h)

/-! Helper lemmas: well-formedness is preserved by every operation. -/

theorem Chunk.wf_releaseOp {c : Chunk} (h : c.wf = true) (off counter : Nat) :
    (c.releaseOp off counter).wf = true := by
  simp only [Chunk.wf, Chunk.releaseOp] at *
  exact tilesFrom_coalesce (by rw [releaseAt, tilesFrom_map (releaseAt_offset off) (releaseAt_size off)]; exact h)

theorem Chunk.wf_lockOp {c : Chunk} (h : c.wf = true) (off : Nat) :
    (c.lockOp off).wf = true := by
  simp only [Chunk.wf, Chunk.lockOp] at *
  rw [tilesFrom_lockAt]
  exact h

theorem Chunk.wf_unlockOp {c : Chunk} (h : c.wf = true) (off : Nat) :
    (c.unlockOp off).wf = true := by
  simp only [Chunk.wf, Chunk.unlockOp] at *
  rw [tilesFrom_unlockAt]
  exact h

theorem Chunk.wf_withSlices {c : Chunk} {req align off : Nat} {sl : List Slice}
    (h : c.wf = true) (hc : carve req align c.slices = some (off, sl)) (counter : Nat) :
    (c.withSlices sl counter).wf = true := by
  simp only [Chunk.wf, Chunk.withSlices] at *
  exact tilesFrom_carve h hc

theorem freshChunk_wf (size counter : Nat) : (freshChunk size counter).wf = true := by
  simp [freshChunk, Chunk.wf, tilesFrom]

theorem Pool.wf_sliced {p : SlicedPool} :
    Pool.wf (.sliced p) = p.chunks.all (fun oc => ((oc.map Chunk.wf).getD true)) := rfl

theorem Pool.wf_exclusive {p : ExclusivePool} :
    Pool.wf (.exclusive p) = p.chunks.all (fun oc => ((oc.map Chunk.wf).getD true)) := rfl

theorem ochunk_wf_map {f : Chunk → Chunk} (hf : ∀ c, c.wf = true → (f c).wf = true) :
    ∀ oc : Option Chunk, ((oc.map Chunk.wf).getD true) = true →
      (((oc.map f).map Chunk.wf).getD true) = true := by
  intro oc h
  cases oc with
  | none => simp
  | some c => simpa using hf c (by simpa using h)

theorem findCarve_spec {req align : Nat} :
    ∀ {chunks : List (Option Chunk)} {ci off : Nat} {sl : List Slice},
      findCarve req align chunks = some (ci, off, sl) →
      ∃ c, nth chunks ci = some (some c) ∧ carve req align c.slices = some (off, sl) := by
  intro chunks
  induction chunks with
  | nil => intro ci off sl h; simp [findCarve] at h
  | cons oc rest ih =>
    intro ci off sl h
    cases oc with
    | some c =>
      rw [findCarve] at h
      cases hcv : carve req align c.slices with
      | some r =>
        rw [hcv] at h
        obtain ⟨off₀, sl₀⟩ := r
        injection h with h
        injection h with h1 h2
        subst h1
        injection h2 with h2a h2b
        subst h2a; subst h2b
        exact ⟨c, by simp [nth], hcv⟩
      | none =>
        rw [hcv] at h
        cases hfc : findCarve req align rest with
        | none => rw [hfc] at h; exact absurd h (by simp)
        | some r =>
          rw [hfc] at h
          obtain ⟨ci₀, off₀, sl₀⟩ := r
          simp at h
          obtain ⟨h1, h2, h3⟩ := h
          subst h1; subst h2; subst h3
          obtain ⟨c₀, hn, hc₀⟩ := ih hfc
          exact ⟨c₀, by simpa [nth] using hn, hc₀⟩
    | none =>
      rw [findCarve] at h
      cases hfc : findCarve req align rest with
      | none => rw [hfc] at h; exact absurd h (by simp)
      | some r =>
        rw [hfc] at h
        obtain ⟨ci₀, off₀, sl₀⟩ := r
        simp at h
        obtain ⟨h1, h2, h3⟩ := h
        subst h1; subst h2; subst h3
        obtain ⟨c₀, hn, hc₀⟩ := ih hfc
        exact ⟨c₀, by simpa [nth] using hn, hc₀⟩

theorem all_modifyIdx_at {p : α → Bool} {f : α → α} {l : List α} {i : Nat} {a : α}
    (hl : l.all p = true) (hn : nth l i = some a) (hf : p (f a) = true) :
    (modifyIdx f i l).all p = true := by
  induction l generalizing i with
  | nil => simp [modifyIdx]
  | cons x rest ih =>
    simp at hl
    cases i with
    | zero =>
      simp [nth] at hn
      subst hn
      simpa [modifyIdx] using ⟨hf, hl.2⟩
    | succ j =>
      simp [nth] at hn
      simp [modifyIdx]
      exact ⟨hl.1, by simpa using ih (by simpa using hl.2) hn⟩

theorem Pool.wf_reserve {pool : Pool} (h : Pool.wf pool = true) (size align counter : Nat) :
    Pool.wf (pool.reserve size align counter).2 = true := by
  cases pool with
  | sliced p =>
    simp only [Pool.reserve, SlicedPool.reserve]
    by_cases hbig : p.maxSliceSize < size
    · simpa [hbig] using h
    · rw [if_neg hbig]
      cases hfc : findCarve size align p.chunks with
      | some r =>
        obtain ⟨ci, off, sl⟩ := r
        obtain ⟨c, hn, hcv⟩ := findCarve_spec hfc
        simp only [Pool.wf_sliced] at h ⊢
        have hcwf : c.wf = true := by simpa using all_nth h hn
        exact all_modifyIdx_at h hn (by simpa using Chunk.wf_withSlices hcwf hcv counter)
      | none =>
        cases hcf : carve size align (freshChunk p.pageSize counter).slices with
        | some r =>
          obtain ⟨off, sl⟩ := r
          simp only [Pool.wf_sliced] at h ⊢
          rw [List.all_append]
          simp only [h, Bool.true_and]
          simp [List.all]
          show Chunk.wf ⟨p.pageSize, sl, counter⟩ = true
          simp only [Chunk.wf]
          exact tilesFrom_carve (by simpa [freshChunk, Chunk.wf] using freshChunk_wf p.pageSize counter) hcf
        | none => simpa using h
  | exclusive p =>
    simp only [Pool.reserve, ExclusivePool.reserve]
    simp only [Pool.wf_exclusive] at h ⊢
    rw [List.all_append]
    simp only [h, Bool.true_and]
    simp [List.all]
    show Chunk.wf ⟨roundUp size align, [⟨0, roundUp size align, false, 0⟩], counter⟩ = true
    simp [Chunk.wf, tilesFrom]

theorem Pool.wf_release {pool : Pool} (h : Pool.wf pool = true) (ci off counter : Nat) :
    Pool.wf (pool.release ci off counter) = true := by
  cases pool with
  | sliced p =>
    simp only [Pool.release, SlicedPool.release, Pool.wf_sliced] at h ⊢
    exact all_modifyIdx ci h (ochunk_wf_map (fun c hc => Chunk.wf_releaseOp hc off counter))
  | exclusive p =>
    simp only [Pool.release, ExclusivePool.release, Pool.wf_exclusive] at h ⊢
    exact all_modifyIdx ci h (ochunk_wf_map (fun c hc => Chunk.wf_releaseOp hc off counter))

theorem Pool.wf_lock {pool : Pool} (h : Pool.wf pool = true) (ci off : Nat) :
    Pool.wf (pool.lock ci off) = true := by
  cases pool with
  | sliced p =>
    simp only [Pool.lock, SlicedPool.lock, Pool.wf_sliced] at h ⊢
    exact all_modifyIdx ci h (ochunk_wf_map (fun c hc => Chunk.wf_lockOp hc off))
  | exclusive p =>
    simp only [Pool.lock, ExclusivePool.lock, Pool.wf_exclusive] at h ⊢
    exact all_modifyIdx ci h (ochunk_wf_map (fun c hc => Chunk.wf_lockOp hc off))

theorem Pool.wf_unlock {pool : Pool} (h : Pool.wf pool = true) (ci off : Nat) :
    Pool.wf (pool.unlock ci off) = true := by
  cases pool with
  | sliced p =>
    simp only [Pool.unlock, SlicedPool.unlock, Pool.wf_sliced] at h ⊢
    exact all_modifyIdx ci h (ochunk_wf_map (fun c hc => Chunk.wf_unlockOp hc off))
  | exclusive p =>
    simp only [Pool.unlock, ExclusivePool.unlock, Pool.wf_exclusive] at h ⊢
    exact all_modifyIdx ci h (ochunk_wf_map (fun c hc => Chunk.wf_unlockOp hc off))

theorem Pool.wf_tick {pool : Pool} (h : Pool.wf pool = true) (counter : Nat) :
    Pool.wf (pool.tick counter) = true := by
  cases pool with
  | sliced p =>
    simp only [Pool.tick, SlicedPool.tick]
    cases hd : p.deallocPeriod with
    | none => simpa [hd] using h
    | some P =>
      simp only [Pool.wf_sliced] at h ⊢
      rw [List.all_map]
      simp only [List.all_eq_true] at h ⊢
      intro oc hoc
      cases oc with
      | none => simp
      | some c =>
        by_cases hcond : (c.fullyFree && c.unlocked && P ≤ counter - c.lastTouched) = true
        · simp [Function.comp, hcond]
        · simpa [Function.comp, hcond] using h (some c) hoc
  | exclusive p =>
    simp only [Pool.tick, ExclusivePool.tick]
    simp only [Pool.wf_exclusive] at h ⊢
    rw [List.all_map]
    simp only [List.all_eq_true] at h ⊢
    intro oc hoc
    cases oc with
    | none => simp
    | some c =>
      by_cases hcond : (c.fullyFree && c.unlocked) = true
      · simp [Function.comp, hcond]
      · simpa [Function.comp, hcond] using h (some c) hoc

theorem Manager.reserve_spec (m : Manager) (size align : Nat) :
    ((m.reserve size align).2 = m ∧ (∃ e, (m.reserve size align).1 = .error e)) ∨
    (∃ pi pool ci off pool',
      coveringIdx size m.pools = some pi ∧
      nth m.pools pi = some pool ∧
      pool.reserve size align m.counter = (.ok (ci, off), pool') ∧
      (m.reserve size align).1 = .ok ⟨pi, ci, off⟩ ∧
      (m.reserve size align).2 = ⟨modifyIdx (fun _ => pool') pi m.pools, m.counter + 1⟩) := by
  cases hci : coveringIdx size m.pools with
  | none =>
    exact .inl ⟨by simp [Manager.reserve, hci], .SliceTooLarge, by simp [Manager.reserve, hci]⟩
  | some pi =>
    cases hn : nth m.pools pi with
    | none =>
      exact .inl ⟨by simp [Manager.reserve, hci, hn], .SliceTooLarge,
        by simp [Manager.reserve, hci, hn]⟩
    | some pool =>
      cases hr : pool.reserve size align m.counter with
      | mk res pool' =>
        cases res with
        | ok v =>
          obtain ⟨ci, off⟩ := v
          exact .inr ⟨pi, pool, ci, off, pool', rfl, hn, hr,
            by simp [Manager.reserve, hci, hn, hr], by simp [Manager.reserve, hci, hn, hr]⟩
        | error e =>
          exact .inl ⟨by simp [Manager.reserve, hci, hn, hr], e,
            by simp [Manager.reserve, hci, hn, hr]⟩

theorem Manager.wf_step {m : Manager} (h : m.wf = true) (op : Op) :
    (m.step op).wf = true := by
  cases op with
  | reserve size align =>
    show ((m.reserve size align).2).wf = true
    rcases Manager.reserve_spec m size align with ⟨heq, _⟩ | ⟨pi, pool, ci, off, pool', _, hn, hr, _, heq⟩
    · rw [heq]; exact h
    · rw [heq]
      simp only [Manager.wf] at h ⊢
      have hp' : Pool.wf pool' = true := by
        have := Pool.wf_reserve (all_nth h hn) size align m.counter
        rwa [hr] at this
      exact all_modifyIdx_at h hn hp'
  | release hd =>
    simp only [Manager.step, Manager.release, Manager.wf] at h ⊢
    exact all_modifyIdx hd.pool h (fun pool hp => Pool.wf_release hp hd.chunk hd.offset m.counter)
  | lock hd =>
    simp only [Manager.step, Manager.lock, Manager.wf] at h ⊢
    exact all_modifyIdx hd.pool h (fun pool hp => Pool.wf_lock hp hd.chunk hd.offset)
  | unlock hd =>
    simp only [Manager.step, Manager.unlock, Manager.wf] at h ⊢
    exact all_modifyIdx hd.pool h (fun pool hp => Pool.wf_unlock hp hd.chunk hd.offset)
  | tick =>
    simp only [Manager.step, Manager.tickAll, Manager.wf] at h ⊢
    rw [List.all_map]
    simp only [List.all_eq_true] at h ⊢
    intro pool hp
    simpa [Function.comp] using Pool.wf_tick (h pool hp) m.counter

theorem Manager.wf_run {m : Manager} (h : m.wf = true) (ops : List Op) :
    (m.run ops).wf = true := by
  induction ops generalizing m with
  | nil => simpa [Manager.run] using h
  | cons op ops ih => exact ih (Manager.wf_step h op)

theorem initPool_wf (o : MemoryPoolOptions) : Pool.wf (initPool o) = true := by
  cases hpt : o.pool_type with
  | SlicedPages maxSlice =>
    simp only [initPool, hpt, Pool.wf_sliced]
    simp [List.all_eq_true]
    exact Or.inr (freshChunk_wf o.page_size 0)
  | ExclusivePages =>
    simp only [initPool, hpt, Pool.wf_exclusive]
    simp [List.all_eq_true]
    exact Or.inr (freshChunk_wf o.page_size 0)

theorem configure_wf {d : MemoryDeviceProperties} {cfg : List MemoryPoolOptions} {m : Manager}
    (h : configure d cfg = .ok m) : m.wf = true := by
  simp only [configure] at h
  by_cases hv : cfg.all (validPool d) = true
  · rw [if_pos hv] at h
    injection h with h
    subst h
    simp only [Manager.wf, List.all_eq_true]
    intro pool hp
    obtain ⟨o, ho, rfl⟩ := List.mem_map.mp hp
    exact initPool_wf o
  · rw [if_neg hv] at h
    exact absurd h (by simp)

theorem Manager.chunk_wf {m : Manager} (h : m.wf = true) {pi ci : Nat} {c : Chunk}
    (hc : m.chunkAt pi ci = some c) : c.wf = true := by
  simp only [Manager.chunkAt] at hc
  cases hn : nth m.pools pi with
  | none => rw [hn] at hc; simp at hc
  | some pool =>
    rw [hn] at hc
    simp only [Option.some_bind] at hc
    have hpwf : Pool.wf pool = true := all_nth h hn
    simp only [Pool.chunkAt] at hc
    cases hcn : nth pool.chunkArena ci with
    | none => rw [hcn] at hc; simp at hc
    | some oc =>
      rw [hcn] at hc
      cases oc with
      | none => simp at hc
      | some c' =>
        simp at hc
        subst hc
        simpa using all_nth hpwf hcn

/-- C1: for every accepted configuration and every sequence of reserve,
release, lock, unlock and tick operations, at every point between
operations no two live (used or locked) slices within the same chunk
overlap in byte range. -/
theorem reserve_release_no_aliasing (d : MemoryDeviceProperties)
    (cfg : List MemoryPoolOptions) (m0 : Manager) (ops : List Op)
    (hconf : configure d cfg = .ok m0) :
    Manager.noAliasing (m0.run ops) := by
  intro pi ci c hc
  exact Chunk.noAliasing_of_wf
    (Manager.chunk_wf (Manager.wf_run (configure_wf hconf) ops) hc)

/-- Witness for C1 at a concrete mixed configuration and operation list. -/
theorem reserve_release_no_aliasing_witness :
    Manager.noAliasing (Manager.run
      ⟨[initPool ⟨.SlicedPages 64, 256, 1, some 2⟩, initPool ⟨.ExclusivePages, 256, 0, none⟩], 0⟩
      [.reserve 32 4, .reserve 32 4, .release ⟨0, 0, 0⟩, .tick, .reserve 300 4]) :=
  reserve_release_no_aliasing ⟨1024, 1⟩
    [⟨.SlicedPages 64, 256, 1, some 2⟩, ⟨.ExclusivePages, 256, 0, none⟩] _
    [.reserve 32 4, .reserve 32 4, .release ⟨0, 0, 0⟩, .tick, .reserve 300 4] (by rfl)

/-- C3: a request above the ceiling of a Sliced-Pages pool fails with
`SliceTooLarge` and leaves the pool unchanged — no chunk is allocated and
no slice is created. -/
theorem sliced_reserve_too_large (p : SlicedPool) (size align counter : Nat)
    (h : p.maxSliceSize < size) :
    p.reserve size align counter = (.error .SliceTooLarge, p) := by
  unfold SlicedPool.reserve
  rw [if_pos h]

/-- Witness for C3: a 500-byte request on a pool with a 256-byte ceiling. -/
theorem sliced_reserve_too_large_witness :
    SlicedPool.reserve ⟨256, 1024, some 2, []⟩ 500 4 0
      = (.error .SliceTooLarge, ⟨256, 1024, some 2, []⟩) :=
  sliced_reserve_too_large _ 500 4 0 (by decide)

/-- C4: with `dealloc_period = P`, a fully free unlocked chunk whose
last-touched value is at least `P` allocation operations older than the
current global counter is destroyed by the pool's next tick, while a fully
free chunk touched within the last `P` operations is retained. -/
theorem sliced_tick_eviction (p : SlicedPool) (P counter ci : Nat) (c : Chunk)
    (hP : p.deallocPeriod = some P) (hc : nth p.chunks ci = some (some c))
    (hfree : c.fullyFree = true) (hunl : c.unlocked = true) :
    (P ≤ counter - c.lastTouched → nth (p.tick counter).chunks ci = some none) ∧
    (counter - c.lastTouched < P → nth (p.tick counter).chunks ci = some (some c)) := by
  constructor
  · intro hold
    simp only [SlicedPool.tick, hP]
    rw [nth_map, hc]
    simp [hfree, hunl, hold]
  · intro hrecent
    simp only [SlicedPool.tick, hP]
    rw [nth_map, hc]
    have hnot : ¬ (P ≤ counter - c.lastTouched) := by omega
    simp [hfree, hunl, hnot]

/-- Witness for C4: with period 2, a chunk last touched at 0 is evicted at
counter 5 and retained at counter 1. -/
theorem sliced_tick_eviction_witness :
    nth (SlicedPool.tick ⟨8, 16, some 2, [some (freshChunk 16 0)]⟩ 5).chunks 0 = some none ∧
    nth (SlicedPool.tick ⟨8, 16, some 2, [some (freshChunk 16 0)]⟩ 1).chunks 0
      = some (some (freshChunk 16 0)) := by
  constructor
  · exact (sliced_tick_eviction ⟨8, 16, some 2, [some (freshChunk 16 0)]⟩ 2 5 0
      (freshChunk 16 0) rfl rfl (by decide) (by decide)).1 (by decide)
  · exact (sliced_tick_eviction ⟨8, 16, some 2, [some (freshChunk 16 0)]⟩ 2 1 0
      (freshChunk 16 0) rfl rfl (by decide) (by decide)).2 (by decide)

/-- C5: on an Exclusive-Pages pool, once `release` marks a chunk's sole
slice free, the very next `tick` destroys that chunk provided the slice is
unlocked — with no waiting period and independently of the pool's
configured `deallocPeriod`, which is universally quantified here as part
of `p`. -/
theorem exclusive_release_then_tick_destroys (p : ExclusivePool) (ci counter : Nat)
    (c : Chunk) (s : Slice)
    (hc : nth p.chunks ci = some (some c)) (hs : c.slices = [s]) (hlock : s.lockCount = 0) :
    nth ((p.release ci s.offset counter).tick).chunks ci = some none := by
  simp only [ExclusivePool.release, ExclusivePool.tick]
  rw [nth_map, nth_modifyIdx_self, hc]
  have h1 : (c.releaseOp s.offset counter).fullyFree = true := by
    cases hfree : s.free <;>
      simp [Chunk.releaseOp, hs, releaseAt, coalesce, Chunk.fullyFree, hfree, hlock]
  have h2 : (c.releaseOp s.offset counter).unlocked = true := by
    cases hfree : s.free <;>
      simp [Chunk.releaseOp, hs, releaseAt, coalesce, Chunk.unlocked, hfree, hlock]
  simp [h1, h2]

/-- Witness for C5: a one-chunk pool with a used, unlocked slice and a
configured dealloc period of 1000. -/
theorem exclusive_release_then_tick_destroys_witness :
    nth ((ExclusivePool.release ⟨some 1000, [some ⟨8, [⟨0, 8, false, 0⟩], 3⟩]⟩ 0 0 7).tick).chunks 0
      = some none :=
  exclusive_release_then_tick_destroys _ 0 7 ⟨8, [⟨0, 8, false, 0⟩], 3⟩ ⟨0, 8, false, 0⟩
    rfl rfl rfl

theorem validPool_iff (d : MemoryDeviceProperties) (o : MemoryPoolOptions) :
    validPool d o = true ↔
      (0 < o.page_size ∧ o.page_size ≤ d.max_page_size ∧
        ∀ maxSlice, o.pool_type = .SlicedPages maxSlice → maxSlice ≤ o.page_size) := by
  obtain ⟨pt, ps, cn, dp⟩ := o
  cases pt <;> simp [validPool, and_assoc]

/-- C7: pool creation through `configure` fails with `InvalidConfiguration`
exactly when some pool's options violate the constraints: a positive page
size, a page size within the device's maximum, and for the sliced strategy
a slice ceiling within the page size. -/
theorem configure_fails_iff (d : MemoryDeviceProperties) (cfg : List MemoryPoolOptions) :
    configure d cfg = .error .InvalidConfiguration ↔
      ¬ ∀ o ∈ cfg, (0 < o.page_size ∧ o.page_size ≤ d.max_page_size ∧
        ∀ maxSlice, o.pool_type = .SlicedPages maxSlice → maxSlice ≤ o.page_size) := by
  by_cases hv : cfg.all (validPool d) = true
  · simp only [configure, if_pos hv]
    constructor
    · intro h
      exact absurd h (by simp)
    · intro h
      exfalso
      apply h
      intro o ho
      exact (validPool_iff d o).mp (List.all_eq_true.mp hv o ho)
  · simp only [configure, if_neg hv]
    constructor
    · intro _ hall
      apply hv
      rw [List.all_eq_true]
      intro o ho
      exact (validPool_iff d o).mpr (hall o ho)
    · intro _
      trivial

/-- Witness for C7: a zero page size is rejected, and a valid ladder is
accepted (so the failure is not unconditional). -/
theorem configure_fails_iff_witness :
    configure ⟨100, 4⟩ [⟨.SlicedPages 8, 0, 0, none⟩] = .error .InvalidConfiguration ∧
    ¬ (configure ⟨100, 4⟩ [⟨.SlicedPages 8, 16, 0, none⟩] = .error .InvalidConfiguration) := by
  constructor
  · refine (configure_fails_iff ⟨100, 4⟩ [⟨.SlicedPages 8, 0, 0, none⟩]).mpr ?_
    intro h
    have := (h ⟨.SlicedPages 8, 0, 0, none⟩ (by simp)).1
    exact absurd this (by decide)
  · intro hbad
    have := (configure_fails_iff ⟨100, 4⟩ [⟨.SlicedPages 8, 16, 0, none⟩]).mp hbad
    apply this
    intro o ho
    simp at ho
    subst ho
    refine ⟨by decide, by decide, ?_⟩
    intro maxSlice hms
    injection hms with hms
    subst hms
    decide

/-- C8: in a build without the `exclusive_memory_only` flag the default
memory configuration is the mixed sub-slices preset, not the
all-exclusive preset. -/
theorem default_configuration_subslices :
    MemoryConfiguration.defaultFor false = .SubSlices ∧
    (MemoryConfiguration.defaultFor false).isExclusivePages = false :=
  ⟨rfl, rfl⟩

/-- C9: under the `exclusive_memory_only` flag the `SubSlices` variant is
uninhabited and the default is `ExclusivePages`; the sub-slices preset is
the default exactly in builds without the flag. -/
theorem exclusive_memory_only_default :
    (∀ c : MemoryConfiguration true, c.isSubSlices = false) ∧
    MemoryConfiguration.defaultFor true = .ExclusivePages ∧
    (∀ b : Bool, (MemoryConfiguration.defaultFor b).isSubSlices = true ↔ b = false) := by
  refine ⟨?_, rfl, ?_⟩
  · intro c
    cases c <;> rfl
  · intro b
    cases b <;> simp [MemoryConfiguration.defaultFor, MemoryConfiguration.isSubSlices]

/-- Witness for C9 at the only closed instances: the default under the
flag is not sub-slices, and without the flag it is. -/
theorem exclusive_memory_only_default_witness :
    (MemoryConfiguration.defaultFor true).isSubSlices = false ∧
    (MemoryConfiguration.defaultFor false).isSubSlices = true := by
  constructor
  · exact exclusive_memory_only_default.1 (MemoryConfiguration.defaultFor true)
  · exact (exclusive_memory_only_default.2.2 false).mpr rfl

/-- C10: the configuration structures perform no validation — every
combination of `u64` field values can be constructed, including a zero
page size, a page size above the device maximum, and a sliced ceiling
above the page size. -/
theorem options_construction_unvalidated :
    (∀ (pt : PoolType) (ps cn : Nat) (dp : Option Nat), ps < 2 ^ 64 → cn < 2 ^ 64 →
      ∃ o : MemoryPoolOptions, o.pool_type = pt ∧ o.page_size = ps ∧
        o.chunk_num_prealloc = cn ∧ o.dealloc_period = dp) ∧
    (∀ mps al : Nat, mps < 2 ^ 64 → al < 2 ^ 64 →
      ∃ dprops : MemoryDeviceProperties, dprops.max_page_size = mps ∧ dprops.alignment = al) ∧
    (∃ o : MemoryPoolOptions, o.page_size = 0) ∧
    (∃ (o : MemoryPoolOptions) (dprops : MemoryDeviceProperties),
      dprops.max_page_size < o.page_size) ∧
    (∃ (o : MemoryPoolOptions) (maxSlice : Nat),
      o.pool_type = .SlicedPages maxSlice ∧ o.page_size < maxSlice) := by
  refine ⟨?_, ?_, ?_, ?_, ?_⟩
  · intro pt ps cn dp _ _
    exact ⟨⟨pt, ps, cn, dp⟩, rfl, rfl, rfl, rfl⟩
  · intro mps al _ _
    exact ⟨⟨mps, al⟩, rfl, rfl⟩
  · exact ⟨⟨.ExclusivePages, 0, 0, none⟩, rfl⟩
  · exact ⟨⟨.ExclusivePages, 5, 0, none⟩, ⟨1, 1⟩, by decide⟩
  · exact ⟨⟨.SlicedPages 10, 5, 0, none⟩, 10, rfl, by decide⟩

/-- Witness for C10: an options value with a zero page size and an
out-of-range prealloc-free configuration is constructible. -/
theorem options_construction_unvalidated_witness :
    ∃ o : MemoryPoolOptions, o.pool_type = .ExclusivePages ∧ o.page_size = 0 ∧
      o.chunk_num_prealloc = 0 ∧ o.dealloc_period = none :=
  options_construction_unvalidated.1 .ExclusivePages 0 0 none (by decide) (by decide)

theorem counter_le_step (m : Manager) (op : Op) : m.counter ≤ (m.step op).counter := by
  cases op with
  | reserve size align =>
    show m.counter ≤ ((m.reserve size align).2).counter
    rcases Manager.reserve_spec m size align with ⟨heq, _⟩ | ⟨_, _, _, _, _, _, _, _, _, heq⟩
    · rw [heq]
    · rw [heq]
      exact Nat.le_succ _
  | release h => exact Nat.le_refl _
  | lock h => exact Nat.le_refl _
  | unlock h => exact Nat.le_refl _
  | tick => exact Nat.le_refl _

theorem counter_le_run (m : Manager) (ops : List Op) : m.counter ≤ (m.run ops).counter := by
  induction ops generalizing m with
  | nil => exact Nat.le_refl _
  | cons op ops ih => exact Nat.le_trans (counter_le_step m op) (ih (m.step op))

/-- C6: the global allocation counter is monotonically non-decreasing over
every operation sequence; a successful reserve increments it by exactly
one regardless of which pool served the request; a failed reserve and the
release, lock, unlock and tick operations leave it unchanged. -/
theorem counter_monotone_one_per_reserve :
    (∀ (m : Manager) (ops : List Op), m.counter ≤ (m.run ops).counter) ∧
    (∀ (m : Manager) (size align : Nat) (h : Handle),
      (m.reserve size align).1 = .ok h → ((m.reserve size align).2).counter = m.counter + 1) ∧
    (∀ (m : Manager) (size align : Nat) (e : ReserveError),
      (m.reserve size align).1 = .error e → ((m.reserve size align).2).counter = m.counter) ∧
    (∀ (m : Manager) (h : Handle),
      (m.release h).counter = m.counter ∧ (m.lock h).counter = m.counter ∧
        (m.unlock h).counter = m.counter) ∧
    (∀ m : Manager, m.tickAll.counter = m.counter) := by
  refine ⟨counter_le_run, ?_, ?_, fun m h => ⟨rfl, rfl, rfl⟩, fun m => rfl⟩
  · intro m size align h hok
    rcases Manager.reserve_spec m size align with ⟨_, e, herr⟩ | ⟨_, _, _, _, _, _, _, _, _, heq⟩
    · rw [hok] at herr
      exact absurd herr (by simp)
    · rw [heq]
  · intro m size align e herr
    rcases Manager.reserve_spec m size align with ⟨heq, _⟩ | ⟨_, _, _, _, _, _, _, _, hok, _⟩
    · rw [heq]
    · rw [herr] at hok
      exact absurd hok (by simp)

/-- Witness for C6 on a one-pool manager: a successful reserve moves the
counter from 0 to 1, tick leaves it at 0, and a run is monotone. -/
theorem counter_monotone_one_per_reserve_witness :
    ((Manager.reserve ⟨[initPool ⟨.ExclusivePages, 8, 0, none⟩], 0⟩ 4 1).2).counter = 1 ∧
    (Manager.tickAll ⟨[initPool ⟨.ExclusivePages, 8, 0, none⟩], 0⟩).counter = 0 ∧
    (Manager.mk [initPool ⟨.ExclusivePages, 8, 0, none⟩] 0).counter ≤
      (Manager.run ⟨[initPool ⟨.ExclusivePages, 8, 0, none⟩], 0⟩
        [.reserve 4 1, .tick]).counter := by
  refine ⟨?_, ?_, ?_⟩
  · exact counter_monotone_one_per_reserve.2.1 _ 4 1 ⟨0, 0, 0⟩ (by rfl)
  · exact counter_monotone_one_per_reserve.2.2.2.2 _
  · exact counter_monotone_one_per_reserve.1 _ _

/-! Helper lemmas: a locked slice survives every operation untouched. -/

theorem keepSlice_refl (s : Slice) : keepSlice s s := ⟨rfl, rfl, fun h => h⟩

theorem carve_keeps_locked {req align : Nat} :
    ∀ {l l' : List Slice} {off : Nat}, carve req align l = some (off, l') →
      ∀ s ∈ l, s.lockCount ≠ 0 → s ∈ l' := by
  intro l
  induction l with
  | nil => intro l' off hc; simp [carve] at hc
  | cons a rest ih =>
    intro l' off hc s hs hl
    by_cases hf : fits req align a
    · rw [carve, if_pos hf] at hc
      injection hc with hc
      injection hc with h1 h2
      subst h2
      rcases List.mem_cons.mp hs with rfl | hs
      · exact absurd (fits_parts hf).2.1 hl
      · by_cases hlt : req < a.size
        · simp only [if_pos hlt]
          exact List.mem_cons_of_mem _ (List.mem_cons_of_mem _ hs)
        · simp only [if_neg hlt]
          exact List.mem_cons_of_mem _ hs
    · rw [carve, if_neg hf] at hc
      cases hcr : carve req align rest with
      | none => rw [hcr] at hc; exact absurd hc (by simp)
      | some r =>
        obtain ⟨off₂, l₂⟩ := r
        rw [hcr] at hc
        injection hc with hc
        injection hc with h1 h2
        subst h2
        rcases List.mem_cons.mp hs with rfl | hs
        · exact List.mem_cons_self _ _
        · exact List.mem_cons_of_mem _ (ih hcr s hs hl)

theorem coalesce_keeps_locked : ∀ {l : List Slice} {s : Slice}, s ∈ l → s.lockCount ≠ 0 →
    s ∈ coalesce l := by
  intro l
  induction l with
  | nil => intro s hs; simp at hs
  | cons a rest ih =>
    intro s hs hl
    rcases List.mem_cons.mp hs with rfl | hs
    · cases hcr : coalesce rest with
      | nil => simp [coalesce, hcr]
      | cons b rest' =>
        by_cases hm : (s.free && s.lockCount == 0 && b.free && b.lockCount == 0
            && b.offset == s.offset + s.size) = true
        · simp only [Bool.and_eq_true, beq_iff_eq] at hm
          exact absurd hm.1.1.1.2 hl
        · simp only [coalesce, hcr, if_neg hm]
          exact List.mem_cons_self _ _
    · have hs' := ih hs hl
      cases hcr : coalesce rest with
      | nil => rw [hcr] at hs'; simp at hs'
      | cons b rest' =>
        rw [hcr] at hs'
        by_cases hm : (a.free && a.lockCount == 0 && b.free && b.lockCount == 0
            && b.offset == a.offset + a.size) = true
        · rcases List.mem_cons.mp hs' with rfl | hs''
          · simp only [Bool.and_eq_true, beq_iff_eq] at hm
            exact absurd hm.1.2 hl
          · simp only [coalesce, hcr, if_pos hm]
            exact List.mem_cons_of_mem _ hs''
        · simp only [coalesce, hcr, if_neg hm]
          exact List.mem_cons_of_mem _ hs'

theorem releaseAt_keeps (off : Nat) {l : List Slice} {s : Slice} (hs : s ∈ l) :
    ∃ s' ∈ releaseAt off l, s'.offset = s.offset ∧ s'.size = s.size ∧
      s'.lockCount = s.lockCount ∧ (s.free = true → s'.free = true) := by
  refine ⟨_, List.mem_map_of_mem _ hs, ?_, ?_, ?_, ?_⟩ <;>
    by_cases h : (s.offset == off && !s.free) = true <;> simp [h]

theorem Chunk.releaseOp_keeps {c : Chunk} {s : Slice} (hs : s ∈ c.slices)
    (hl : s.lockCount ≠ 0) (off counter : Nat) :
    ∃ s' ∈ (c.releaseOp off counter).slices, keepSlice s s' := by
  obtain ⟨s₂, hmem, ho, hsz, hlc, hf⟩ := releaseAt_keeps off hs
  have hs₂ : s₂ ∈ coalesce (releaseAt off c.slices) :=
    coalesce_keeps_locked hmem (by rw [hlc]; exact hl)
  exact ⟨s₂, hs₂, ho, hsz, hf⟩

theorem Chunk.lockOp_keeps {c : Chunk} {s : Slice} (hs : s ∈ c.slices) (off : Nat) :
    ∃ s' ∈ (c.lockOp off).slices, keepSlice s s' := by
  refine ⟨_, List.mem_map_of_mem _ hs, ?_⟩
  by_cases h : (s.offset == off) = true <;> simp [keepSlice, h]

theorem Chunk.unlockOp_keeps {c : Chunk} {s : Slice} (hs : s ∈ c.slices) (off : Nat) :
    ∃ s' ∈ (c.unlockOp off).slices, keepSlice s s' := by
  refine ⟨_, List.mem_map_of_mem _ hs, ?_⟩
  by_cases h : (s.offset == off) = true <;> simp [keepSlice, h]

theorem Chunk.unlocked_false {c : Chunk} {s : Slice} (hs : s ∈ c.slices)
    (hl : s.lockCount ≠ 0) : c.unlocked = false := by
  cases hu : c.unlocked with
  | false => rfl
  | true =>
    have := List.all_eq_true.mp hu s hs
    simp at this
    exact absurd this hl

theorem mem_arena_iff {arena : List (Option Chunk)} {ci : Nat} {s : Slice} :
    (s ∈ ((((nth arena ci).bind id).map Chunk.slices).getD [])) ↔
      ∃ c, nth arena ci = some (some c) ∧ s ∈ c.slices := by
  cases h : nth arena ci with
  | none => simp
  | some oc =>
    cases oc with
    | none => simp
    | some c => simp

theorem slicesAtC_sliced (p : SlicedPool) (ci : Nat) :
    Pool.slicesAtC (.sliced p) ci = (((nth p.chunks ci).bind id).map Chunk.slices).getD [] := rfl

theorem slicesAtC_exclusive (p : ExclusivePool) (ci : Nat) :
    Pool.slicesAtC (.exclusive p) ci
      = (((nth p.chunks ci).bind id).map Chunk.slices).getD [] := rfl

theorem SlicedPool.reserve_state (p : SlicedPool) (size align cnt : Nat) :
    ((p.reserve size align cnt).2 = p) ∨
    (∃ ci₀ off sl c₀,
      nth p.chunks ci₀ = some (some c₀) ∧ carve size align c₀.slices = some (off, sl) ∧
      (p.reserve size align cnt).2
        = { p with chunks :=
              modifyIdx (Option.map (fun c => c.withSlices sl cnt)) ci₀ p.chunks }) ∨
    (∃ newc, (p.reserve size align cnt).2 = { p with chunks := p.chunks ++ [some newc] }) := by
  by_cases hbig : p.maxSliceSize < size
  · exact .inl (by simp [SlicedPool.reserve, hbig])
  · cases hfc : findCarve size align p.chunks with
    | some r =>
      obtain ⟨ci₀, off, sl⟩ := r
      obtain ⟨c₀, hn₀, hcv⟩ := findCarve_spec hfc
      exact .inr (.inl ⟨ci₀, off, sl, c₀, hn₀, hcv,
        by simp [SlicedPool.reserve, hbig, hfc]⟩)
    | none =>
      cases hcf : carve size align (freshChunk p.pageSize cnt).slices with
      | some r =>
        obtain ⟨off, sl⟩ := r
        exact .inr (.inr ⟨⟨p.pageSize, sl, cnt⟩,
          by simp [SlicedPool.reserve, hbig, hfc, hcf]⟩)
      | none => exact .inl (by simp [SlicedPool.reserve, hbig, hfc, hcf])

theorem Pool.reserve_keeps (pool : Pool) (size align cnt ci : Nat) {s : Slice}
    (hs : s ∈ pool.slicesAtC ci) (hl : s.lockCount ≠ 0) :
    ∃ s' ∈ ((pool.reserve size align cnt).2).slicesAtC ci, keepSlice s s' := by
  cases pool with
  | sliced p =>
    rw [slicesAtC_sliced] at hs
    obtain ⟨c, hnc, hsc⟩ := mem_arena_iff.mp hs
    have hpr : (Pool.reserve (.sliced p) size align cnt).2
        = .sliced ((p.reserve size align cnt).2) := by
      simp only [Pool.reserve]
    rw [hpr, slicesAtC_sliced]
    rcases SlicedPool.reserve_state p size align cnt with heq | ⟨ci₀, off, sl, c₀, hn₀, hcv, heq⟩ | ⟨newc, heq⟩
    · rw [heq]
      exact ⟨s, mem_arena_iff.mpr ⟨c, hnc, hsc⟩, keepSlice_refl s⟩
    · rw [heq]
      by_cases hci : ci₀ = ci
      · subst hci
        rw [hnc] at hn₀
        injection hn₀ with hn₀
        injection hn₀ with hn₀
        subst hn₀
        refine ⟨s, mem_arena_iff.mpr ⟨c.withSlices sl cnt, ?_, ?_⟩, keepSlice_refl s⟩
        · show nth (modifyIdx (Option.map (fun c => c.withSlices sl cnt)) ci₀ p.chunks) ci₀
            = some (some (c.withSlices sl cnt))
          rw [nth_modifyIdx_self, hnc]
          rfl
        · exact carve_keeps_locked hcv s hsc hl
      · refine ⟨s, mem_arena_iff.mpr ⟨c, ?_, hsc⟩, keepSlice_refl s⟩
        show nth (modifyIdx (Option.map (fun c => c.withSlices sl cnt)) ci₀ p.chunks) ci
          = some (some c)
        rw [nth_modifyIdx_ne _ _ hci]
        exact hnc
    · rw [heq]
      exact ⟨s, mem_arena_iff.mpr ⟨c, nth_append_of_some hnc, hsc⟩, keepSlice_refl s⟩
  | exclusive p =>
    rw [slicesAtC_exclusive] at hs
    obtain ⟨c, hnc, hsc⟩ := mem_arena_iff.mp hs
    show ∃ s' ∈ Pool.slicesAtC
      (.exclusive { p with chunks := p.chunks ++ [some ⟨roundUp size align,
        [⟨0, roundUp size align, false, 0⟩], cnt⟩] }) ci, keepSlice s s'
    rw [slicesAtC_exclusive]
    exact ⟨s, mem_arena_iff.mpr ⟨c, nth_append_of_some hnc, hsc⟩, keepSlice_refl s⟩

theorem arena_modify_keeps {arena : List (Option Chunk)} {g : Chunk → Chunk}
    {ti qi : Nat} {s : Slice}
    (hg : ∀ c, s ∈ c.slices → ∃ s' ∈ (g c).slices, keepSlice s s')
    (hs : s ∈ ((((nth arena qi).bind id).map Chunk.slices).getD [])) :
    ∃ s' ∈ ((((nth (modifyIdx (Option.map g) ti arena) qi).bind id).map Chunk.slices).getD []),
      keepSlice s s' := by
  obtain ⟨c, hnc, hsc⟩ := mem_arena_iff.mp hs
  by_cases hqi : ti = qi
  · subst hqi
    obtain ⟨s', hmem, hk⟩ := hg c hsc
    refine ⟨s', mem_arena_iff.mpr ⟨g c, ?_, hmem⟩, hk⟩
    rw [nth_modifyIdx_self, hnc]
    rfl
  · refine ⟨s, mem_arena_iff.mpr ⟨c, ?_, hsc⟩, keepSlice_refl s⟩
    rw [nth_modifyIdx_ne _ _ hqi]
    exact hnc

theorem Pool.release_keeps (pool : Pool) (ci off cnt qi : Nat) {s : Slice}
    (hs : s ∈ pool.slicesAtC qi) (hl : s.lockCount ≠ 0) :
    ∃ s' ∈ (pool.release ci off cnt).slicesAtC qi, keepSlice s s' := by
  cases pool with
  | sliced p =>
    exact arena_modify_keeps (fun c hsc => Chunk.releaseOp_keeps hsc hl off cnt) hs
  | exclusive p =>
    exact arena_modify_keeps (fun c hsc => Chunk.releaseOp_keeps hsc hl off cnt) hs

theorem Pool.lock_keeps (pool : Pool) (ci off qi : Nat) {s : Slice}
    (hs : s ∈ pool.slicesAtC qi) :
    ∃ s' ∈ (pool.lock ci off).slicesAtC qi, keepSlice s s' := by
  cases pool with
  | sliced p => exact arena_modify_keeps (fun c hsc => Chunk.lockOp_keeps hsc off) hs
  | exclusive p => exact arena_modify_keeps (fun c hsc => Chunk.lockOp_keeps hsc off) hs

theorem Pool.unlock_keeps (pool : Pool) (ci off qi : Nat) {s : Slice}
    (hs : s ∈ pool.slicesAtC qi) :
    ∃ s' ∈ (pool.unlock ci off).slicesAtC qi, keepSlice s s' := by
  cases pool with
  | sliced p => exact arena_modify_keeps (fun c hsc => Chunk.unlockOp_keeps hsc off) hs
  | exclusive p => exact arena_modify_keeps (fun c hsc => Chunk.unlockOp_keeps hsc off) hs

theorem Pool.tick_keeps (pool : Pool) (cnt qi : Nat) {s : Slice}
    (hs : s ∈ pool.slicesAtC qi) (hl : s.lockCount ≠ 0) :
    ∃ s' ∈ (pool.tick cnt).slicesAtC qi, keepSlice s s' := by
  cases pool with
  | sliced p =>
    rw [slicesAtC_sliced] at hs
    obtain ⟨c, hnc, hsc⟩ := mem_arena_iff.mp hs
    have hunl : c.unlocked = false := Chunk.unlocked_false hsc hl
    refine ⟨s, ?_, keepSlice_refl s⟩
    show s ∈ Pool.slicesAtC (.sliced (p.tick cnt)) qi
    rw [slicesAtC_sliced]
    apply mem_arena_iff.mpr
    refine ⟨c, ?_, hsc⟩
    cases hd : p.deallocPeriod with
    | none => simp only [SlicedPool.tick, hd]; exact hnc
    | some P =>
      simp only [SlicedPool.tick, hd]
      rw [nth_map, hnc]
      simp [hunl]
  | exclusive p =>
    rw [slicesAtC_exclusive] at hs
    obtain ⟨c, hnc, hsc⟩ := mem_arena_iff.mp hs
    have hunl : c.unlocked = false := Chunk.unlocked_false hsc hl
    refine ⟨s, ?_, keepSlice_refl s⟩
    show s ∈ Pool.slicesAtC (.exclusive p.tick) qi
    rw [slicesAtC_exclusive]
    apply mem_arena_iff.mpr
    refine ⟨c, ?_, hsc⟩
    simp only [ExclusivePool.tick]
    rw [nth_map, hnc]
    simp [hunl]

/-- C2: a slice with a nonzero lock count survives every single operation
— reserve, release, lock, unlock or tick — as a record with the same byte
range inside the same (still alive) chunk, and its free flag never moves
from free back to used, whatever its free/used flag and however far past
its chunk's dealloc-period age it is; only after the count returns to zero
can any operation reclaim it. -/
theorem locked_slice_never_reclaimed (m : Manager) (op : Op) (pi ci : Nat) (s : Slice)
    (hs : s ∈ m.slicesAt pi ci) (hl : s.lockCount ≠ 0) :
    ∃ s' ∈ (m.step op).slicesAt pi ci, keepSlice s s' := by
  have hsm : ∃ pool, nth m.pools pi = some pool ∧ s ∈ pool.slicesAtC ci := by
    revert hs
    simp only [Manager.slicesAt]
    cases hn : nth m.pools pi with
    | none => intro hs; simp at hs
    | some pool => intro hs; exact ⟨pool, rfl, hs⟩
  obtain ⟨pool, hn, hsp⟩ := hsm
  cases op with
  | reserve size align =>
    show ∃ s' ∈ ((m.reserve size align).2).slicesAt pi ci, keepSlice s s'
    rcases Manager.reserve_spec m size align with ⟨heq, _⟩
      | ⟨pi₀, pool₀, ci₀, off₀, pool', hci, hn₀, hr, hok, heq⟩
    · rw [heq]
      exact ⟨s, hs, keepSlice_refl s⟩
    · rw [heq]
      by_cases hpi : pi₀ = pi
      · subst hpi
        rw [hn] at hn₀
        injection hn₀ with hn₀
        subst hn₀
        have hrw : Manager.slicesAt ⟨modifyIdx (fun _ => pool') pi₀ m.pools, m.counter + 1⟩ pi₀ ci
            = pool'.slicesAtC ci := by
          simp only [Manager.slicesAt]
          rw [nth_modifyIdx_self, hn]
          rfl
        rw [hrw]
        have hkeep := Pool.reserve_keeps pool size align m.counter ci hsp hl
        rw [hr] at hkeep
        exact hkeep
      · have hrw : Manager.slicesAt ⟨modifyIdx (fun _ => pool') pi₀ m.pools, m.counter + 1⟩ pi ci
            = pool.slicesAtC ci := by
          simp only [Manager.slicesAt]
          rw [nth_modifyIdx_ne _ _ hpi, hn]
        rw [hrw]
        exact ⟨s, hsp, keepSlice_refl s⟩
  | release h =>
    show ∃ s' ∈ (m.release h).slicesAt pi ci, keepSlice s s'
    by_cases hpi : h.pool = pi
    · have hrw : (m.release h).slicesAt pi ci
          = (pool.release h.chunk h.offset m.counter).slicesAtC ci := by
        simp only [Manager.release, Manager.slicesAt]
        subst hpi
        rw [nth_modifyIdx_self, hn]
        rfl
      rw [hrw]
      exact Pool.release_keeps pool h.chunk h.offset m.counter ci hsp hl
    · have hrw : (m.release h).slicesAt pi ci = pool.slicesAtC ci := by
        simp only [Manager.release, Manager.slicesAt]
        rw [nth_modifyIdx_ne _ _ hpi, hn]
      rw [hrw]
      exact ⟨s, hsp, keepSlice_refl s⟩
  | lock h =>
    show ∃ s' ∈ (m.lock h).slicesAt pi ci, keepSlice s s'
    by_cases hpi : h.pool = pi
    · have hrw : (m.lock h).slicesAt pi ci = (pool.lock h.chunk h.offset).slicesAtC ci := by
        simp only [Manager.lock, Manager.slicesAt]
        subst hpi
        rw [nth_modifyIdx_self, hn]
        rfl
      rw [hrw]
      exact Pool.lock_keeps pool h.chunk h.offset ci hsp
    · have hrw : (m.lock h).slicesAt pi ci = pool.slicesAtC ci := by
        simp only [Manager.lock, Manager.slicesAt]
        rw [nth_modifyIdx_ne _ _ hpi, hn]
      rw [hrw]
      exact ⟨s, hsp, keepSlice_refl s⟩
  | unlock h =>
    show ∃ s' ∈ (m.unlock h).slicesAt pi ci, keepSlice s s'
    by_cases hpi : h.pool = pi
    · have hrw : (m.unlock h).slicesAt pi ci = (pool.unlock h.chunk h.offset).slicesAtC ci := by
        simp only [Manager.unlock, Manager.slicesAt]
        subst hpi
        rw [nth_modifyIdx_self, hn]
        rfl
      rw [hrw]
      exact Pool.unlock_keeps pool h.chunk h.offset ci hsp
    · have hrw : (m.unlock h).slicesAt pi ci = pool.slicesAtC ci := by
        simp only [Manager.unlock, Manager.slicesAt]
        rw [nth_modifyIdx_ne _ _ hpi, hn]
      rw [hrw]
      exact ⟨s, hsp, keepSlice_refl s⟩
  | tick =>
    show ∃ s' ∈ (m.tickAll).slicesAt pi ci, keepSlice s s'
    have hrw : (m.tickAll).slicesAt pi ci = (pool.tick m.counter).slicesAtC ci := by
      simp only [Manager.tickAll, Manager.slicesAt]
      rw [nth_map, hn]
      rfl
    rw [hrw]
    exact Pool.tick_keeps pool m.counter ci hsp hl

/-- Witness for C2: a free-but-locked slice in a fully free chunk far past
its dealloc period survives a tick. -/
theorem locked_slice_never_reclaimed_witness :
    ∃ s' ∈ (Manager.step
      ⟨[.sliced ⟨8, 16, some 1, [some ⟨16, [⟨0, 16, true, 1⟩], 0⟩]⟩], 100⟩ .tick).slicesAt 0 0,
      keepSlice ⟨0, 16, true, 1⟩ s' :=
  locked_slice_never_reclaimed
    ⟨[.sliced ⟨8, 16, some 1, [some ⟨16, [⟨0, 16, true, 1⟩], 0⟩]⟩], 100⟩ .tick 0 0
    ⟨0, 16, true, 1⟩ (by decide) (by decide)
